import Mathlib

/-!
Verification of the TreeView tree state/controller core.

This file shallowly embeds the tree controller of the repository
(`src/components/TreeView.tsx`, `src/components/tree/utils.ts`, and the
full controller variant that exposes cut/paste/rename/create/delete) into
Lean 4 and proves or refutes the specification claims about it.

Modelling conventions:
- The JS `Map<string, TreeNode[]>` load cache is modelled as an
  association list in insertion order (`Cache`); `Map.get` is first-match
  lookup, `Map.set` replaces in place or appends, `Map.delete` filters,
  matching JS `Map` semantics.
- The JS `Set<string>` expansion set is modelled as a `Finset String`.
- `async` controller actions are modelled as pure state transformers,
  parameterised by the external collaborators' outcomes: the child loader
  becomes a function `load : String → List TreeNode` and boolean-returning
  mutation collaborators become explicit `Bool` results.
- JS recursions that follow cache lookups (and therefore have no
  structural termination argument) receive an explicit `fuel` parameter
  that models the JS call stack: exhausting the fuel models a crash of
  the recursion (stack overflow), never a regular result.
- Falsiness of the empty string in JS guards (`if (!id)`, `a || b`) is
  embedded explicitly.
-/

/-- A tree node as defined in `tree/types.ts`: `id`, `label`,
`hasChildren` (the optional JS boolean, `undefined` read as `false`) and
the stored `level` field. -/
structure TreeNode where
  id : String
  label : String
  hasChildren : Bool
  level : Nat
deriving DecidableEq

/-- The lazy load cache: a `Map<string, TreeNode[]>` in insertion order. -/
abbrev Cache := List (String × List TreeNode)

/-- JS `Map.get`: first entry with the given key, if any. -/
def cacheGet (c : Cache) (k : String) : Option (List TreeNode) :=
  (c.find? (fun e => e.1 = k)).map (fun e => e.2)

/-- JS `Map.has`. -/
def cacheHas (c : Cache) (k : String) : Bool :=
  c.any (fun e => e.1 = k)

/-- JS `Map.set`: replace the value in place when the key is present,
otherwise append a new entry at the end. -/
def cacheSet (c : Cache) (k : String) (v : List TreeNode) : Cache :=
  if cacheHas c k then c.map (fun e => if e.1 = k then (k, v) else e)
  else c ++ [(k, v)]

/-- JS `Map.delete`. -/
def cacheDelete (c : Cache) (k : String) : Cache :=
  c.filter (fun e => e.1 ≠ k)

/-- The sentinel id of the invisible root container
(`tree/constants.ts`). -/
def VIRTUAL_ROOT_ID : String := "__virtual_root__"

/-- JS `a || b` on possibly-undefined strings: the empty string is falsy. -/
def jsOrElse (a b : Option String) : Option String :=
  match a with
  | some s => if s = "" then b else some s
  | none => b

/-- Whether a list of nodes contains a node with the given id
(the `children.some((child) => child.id === nodeId)` test). -/
def idsContain (l : List TreeNode) (nodeId : String) : Bool :=
  l.any (fun c => c.id = nodeId)

/-- The `getParentId` helper of `tree/utils.ts` (lines 85-95): scan the
cache entries in insertion order and return the first key whose children
list contains the node. -/
def getParentId (nodeId : String) (loadedChildren : Cache) : Option String :=
  (loadedChildren.find? (fun e => idsContain e.2 nodeId)).map (fun e => e.1)

/-- The `flattenTree` function of `tree/utils.ts` (lines 45-69), with an
explicit `fuel` bound on the recursion depth standing for the JS call
stack (the source recursion follows cache lookups and need not
terminate on arbitrary caches; on forest-shaped caches any fuel at least
the forest depth is never exhausted, see `flattenTree_spec`). -/
def flattenTree (fuel : Nat) (nodes : List TreeNode) (level : Nat)
    (expandedNodes : Finset String) (loadedChildren : Cache) : List TreeNode :=
  match nodes with
  | [] => []
  | node :: rest =>
    let nodeWithLevel := if node.level = level then node else { node with level := level }
    let deeper :=
      if node.id ∈ expandedNodes then
        let childrenToFlatten := (cacheGet loadedChildren node.id).getD []
        if childrenToFlatten.length > 0 then
          match fuel with
          | 0 => []
          | fuel + 1 => flattenTree fuel childrenToFlatten (level + 1) expandedNodes loadedChildren
        else []
      else []
    nodeWithLevel :: (deeper ++ flattenTree fuel rest level expandedNodes loadedChildren)
termination_by (fuel, nodes)

/-- The whole controller state of the full `TreeView` variant: the
signals `selectedNode`, `focusedNode`, `expandedNodes`, `loadedChildren`,
`foldCycleState`, `cutNodeId`, `editingNodeId`, `pendingFocusNodeId` and
`pendingExpansions`. -/
structure TreeState where
  selectedNode : Option TreeNode
  focusedNode : Option TreeNode
  expandedNodes : Finset String
  loadedChildren : Cache
  foldCycleState : Nat
  cutNodeId : Option String
  editingNodeId : Option String
  pendingFocusNodeId : Option String
  pendingExpansions : List (String × Bool)
deriving DecidableEq

/-- The initial signal values: only the virtual root is expanded, nothing
is loaded, focused, selected, cut or being edited. -/
def initState : TreeState :=
  { selectedNode := none
    focusedNode := none
    expandedNodes := {VIRTUAL_ROOT_ID}
    loadedChildren := []
    foldCycleState := 0
    cutNodeId := none
    editingNodeId := none
    pendingFocusNodeId := none
    pendingExpansions := [] }

/-- `handleSelect`. -/
def handleSelect (st : TreeState) (node : TreeNode) : TreeState :=
  { st with selectedNode := some node }

/-- `handleFocus`. -/
def handleFocus (st : TreeState) (node : TreeNode) : TreeState :=
  { st with focusedNode := some node }

/-- `handleExpand`: toggle membership of `nodeId` in the expansion set. -/
def handleExpand (st : TreeState) (nodeId : String) : TreeState :=
  if nodeId ∈ st.expandedNodes then
    { st with expandedNodes := st.expandedNodes.erase nodeId }
  else
    { st with expandedNodes := insert nodeId st.expandedNodes }

/-- `handleChildrenLoaded`: store a loaded children list in the cache. -/
def handleChildrenLoaded (st : TreeState) (nodeId : String) (children : List TreeNode) : TreeState :=
  { st with loadedChildren := cacheSet st.loadedChildren nodeId children }

/-- `handleCut`. -/
def handleCut (st : TreeState) (nodeId : String) : TreeState :=
  { st with cutNodeId := some nodeId }

/-- `clearCut`. -/
def clearCut (st : TreeState) : TreeState :=
  { st with cutNodeId := none }

/-- `collapseAll`: reset the expansion set to the virtual root only. -/
def collapseAll (st : TreeState) : TreeState :=
  { st with expandedNodes := {VIRTUAL_ROOT_ID} }

/-- The reactive effect on `pendingExpansions`: apply every queued
expansion (add when the flag is true, remove when false) and clear the
queue; a no-op when the queue is empty. -/
def flushPendingExpansions (st : TreeState) : TreeState :=
  if st.pendingExpansions = [] then st
  else
    { st with
      expandedNodes :=
        st.pendingExpansions.foldl
          (fun acc p => if p.2 then insert p.1 acc else acc.erase p.1)
          st.expandedNodes
      pendingExpansions := [] }

/-- The root-children focus effect of the full controller: when the cache
has a non-empty entry for the virtual root and nothing is focused, focus
the first root child. -/
def rootFocusEffect (st : TreeState) : TreeState :=
  match cacheGet st.loadedChildren VIRTUAL_ROOT_ID with
  | some rootNodes =>
    if rootNodes.length > 0 ∧ st.focusedNode = none then
      match rootNodes with
      | [] => st
      | r :: _ => { st with focusedNode := some r }
    else st
  | none => st

/-- `refreshParentChildren` of the full controller: optionally expand the
parent, replace its cache entry with a fresh load, and optionally queue a
child id for deferred focusing. -/
def refreshParentChildren (st : TreeState) (parentId : String) (expand : Bool)
    (focusChild : Option String) (load : String → List TreeNode) : TreeState :=
  let st1 := if expand then { st with expandedNodes := insert parentId st.expandedNodes } else st
  let st2 := { st1 with loadedChildren := cacheSet st1.loadedChildren parentId (load parentId) }
  match focusChild with
  | some fc => if fc = "" then st2 else { st2 with pendingFocusNodeId := some fc }
  | none => st2

/-- `handlePaste` of the full controller (the `async` variant): require a
live cut id, call the move collaborator, and only on success refresh the
target parent (expanding it and queueing focus of the moved node), then
the old parent when different, and finally clear the cut marker. The
collaborator's boolean outcome is the `moveOk` parameter. -/
def handlePaste (st : TreeState) (targetId : String) (moveOk : Bool)
    (load : String → List TreeNode) : TreeState :=
  match st.cutNodeId with
  | none => st
  | some cutId =>
    if cutId = "" then st
    else if moveOk then
      let sourceParentId := getParentId cutId st.loadedChildren
      let st1 := refreshParentChildren st targetId true (some cutId) load
      let st2 :=
        match sourceParentId with
        | none => st1
        | some sp =>
          if sp = "" ∨ sp = targetId then st1
          else refreshParentChildren st1 sp false none load
      { st2 with cutNodeId := none }
    else st

/-- `handleMoveToRoot` of the full controller: resolve the target node
from the argument or the focused node, call the move collaborator with
the virtual root as destination, and on success refresh the root and the
old parent. Note that it reads the focused node, not the cut marker, and
never clears `cutNodeId`. -/
def handleMoveToRoot (st : TreeState) (nodeId : Option String) (moveOk : Bool)
    (load : String → List TreeNode) : TreeState :=
  match jsOrElse nodeId (st.focusedNode.map (fun n => n.id)) with
  | none => st
  | some targetNodeId =>
    if targetNodeId = "" then st
    else if moveOk then
      let sourceParentId := getParentId targetNodeId st.loadedChildren
      let st1 := refreshParentChildren st VIRTUAL_ROOT_ID false (some targetNodeId) load
      match sourceParentId with
      | none => st1
      | some sp =>
        if sp = "" ∨ sp = VIRTUAL_ROOT_ID then st1
        else refreshParentChildren st1 sp false none load
    else st

/-- JS string whitespace for `String.prototype.trim`: the ECMAScript
WhiteSpace and LineTerminator sets, that is tab, LF, VT, FF, CR, the
Unicode Zs space separators (space, NBSP, U+1680, U+2000-U+200A, U+202F,
U+205F, U+3000), ZWNBSP and the line separators U+2028 and U+2029. -/
def jsWhitespace (c : Char) : Bool :=
  c.toNat = 9 || c.toNat = 10 || c.toNat = 11 || c.toNat = 12 || c.toNat = 13 ||
  c.toNat = 32 || c.toNat = 160 || c.toNat = 5760 ||
  (8192 ≤ c.toNat && c.toNat ≤ 8202) || c.toNat = 8232 || c.toNat = 8233 ||
  c.toNat = 8239 || c.toNat = 8287 || c.toNat = 12288 || c.toNat = 65279

/-- JS `String.prototype.trim`: strip leading and trailing whitespace. -/
def jsTrim (s : String) : String :=
  String.mk (((s.data.dropWhile jsWhitespace).reverse.dropWhile jsWhitespace).reverse)

/-- A row of the flat example dataset of `routes/tree-example.tsx`. -/
structure FlatItem where
  id : String
  label : String
  parent_id : Option String
deriving DecidableEq

/-- Mutate the first list element with the given id (JS `Array.find`
returns a reference that the collaborator then mutates). -/
def updateFirst (f : FlatItem → FlatItem) : List FlatItem → String → List FlatItem
  | [], _ => []
  | it :: rest, nodeId =>
    if it.id = nodeId then f it :: rest else it :: updateFirst f rest nodeId

/-- The `handleRename` collaborator of `routes/tree-example.tsx` (lines
111-123): find the item; if it exists and the trimmed label is non-empty,
store the trimmed label and report success, otherwise report failure and
change nothing. -/
def exHandleRename (data : List FlatItem) (nodeId newLabel : String) : Bool × List FlatItem :=
  match data.find? (fun it => it.id = nodeId) with
  | some _ =>
    if jsTrim newLabel ≠ "" then
      (true, updateFirst (fun it => { it with label := jsTrim newLabel }) data nodeId)
    else (false, data)
  | none => (false, data)

/-- `refreshTree` of the full controller: clear the cache, reset the
expansion set to the virtual root, reload the root children and queue the
previously expanded ids for re-expansion. The restoration list is a JS
set iterated in insertion order; only its underlying id set matters to
the pending-expansion flush, so the embedding lists it in sorted order. -/
def refreshTree (st : TreeState) (load : String → List TreeNode) : TreeState :=
  let currentExpansions := st.expandedNodes
  let st1 := { st with loadedChildren := ([] : Cache), expandedNodes := ({VIRTUAL_ROOT_ID} : Finset String) }
  let st2 := { st1 with loadedChildren := cacheSet st1.loadedChildren VIRTUAL_ROOT_ID (load VIRTUAL_ROOT_ID) }
  let nodesToRestore := ((currentExpansions.erase VIRTUAL_ROOT_ID).sort (fun a b => a ≤ b))
  if nodesToRestore ≠ [] then
    { st2 with pendingExpansions := nodesToRestore.map (fun id => (id, true)) }
  else st2

/-- `handleRename` of the full controller: begin inline edit of the given
or focused node. -/
def handleRenameBegin (st : TreeState) (nodeId : Option String) : TreeState :=
  match jsOrElse nodeId (st.focusedNode.map (fun n => n.id)) with
  | some t => if t = "" then st else { st with editingNodeId := some t }
  | none => st

/-- `handleRenameCancel`. -/
def handleRenameCancel (st : TreeState) : TreeState :=
  { st with editingNodeId := none }

/-- `handleRenameCommit` of the full controller, composed with the
`handleRename` collaborator of `routes/tree-example.tsx` that owns the
flat dataset. On success it leaves edit mode and then either refreshes
the whole tree or patches the label in place (the in-place patch touches
only the DOM, not the controller state); on failure it does nothing. The
`REFRESH_TREE_AFTER_RENAME` flag is imported from `tree/constants` where
no definition is present in the sources, so it is a parameter here. -/
def handleRenameCommit (st : TreeState) (data : List FlatItem) (refreshTreeAfterRename : Bool)
    (load : String → List TreeNode) (nodeId newLabel : String) : TreeState × List FlatItem :=
  let r := exHandleRename data nodeId newLabel
  if r.1 then
    let st1 := { st with editingNodeId := none }
    (if refreshTreeAfterRename then refreshTree st1 load else st1, r.2)
  else (st, r.2)

/-- First-occurrence deduplication, as JS `[...new Set(xs)]`. -/
def dedupFirst : List String → List String
  | [] => []
  | x :: xs => x :: dedupFirst (xs.filter (fun y => y != x))
termination_by l => l.length
decreasing_by
  simp only [List.length_cons]
  exact Nat.lt_succ_of_le (List.length_filter_le _ _)

/-- `refreshParents` of the full controller: substitute leaf parents (no
expansion, no cache entry) by their own parent or the virtual root,
deduplicate, clear cache entries and expansion of every non-root parent,
queue re-expansion of those that were expanded (or all, when forced) and
reload the virtual root when it is among the refreshed parents. -/
def refreshParents (st : TreeState) (parentIds : List String) (forceExpand : Bool)
    (load : String → List TreeNode) : TreeState :=
  let expanded := st.expandedNodes
  let loaded := st.loadedChildren
  let mapped := (parentIds.filter (fun id => id != "")).map (fun id =>
    if id ≠ VIRTUAL_ROOT_ID ∧ id ∉ expanded ∧ cacheHas loaded id = false then
      match getParentId id loaded with
      | some p => if p = "" then VIRTUAL_ROOT_ID else p
      | none => VIRTUAL_ROOT_ID
    else id)
  let parentsToRefresh := dedupFirst mapped
  let st1 := { st with
    loadedChildren :=
      parentsToRefresh.foldl (fun c id => if id ≠ VIRTUAL_ROOT_ID then cacheDelete c id else c) loaded
    expandedNodes :=
      parentsToRefresh.foldl (fun s id => if id ≠ VIRTUAL_ROOT_ID then s.erase id else s) expanded }
  let toExpand :=
    (parentsToRefresh.filter (fun id =>
      id != VIRTUAL_ROOT_ID && (forceExpand || decide (id ∈ expanded)))).map (fun id => (id, true))
  let st2 := if toExpand ≠ [] then { st1 with pendingExpansions := toExpand } else st1
  if VIRTUAL_ROOT_ID ∈ parentsToRefresh then
    { st2 with loadedChildren :=
        cacheSet (cacheDelete st2.loadedChildren VIRTUAL_ROOT_ID) VIRTUAL_ROOT_ID (load VIRTUAL_ROOT_ID) }
  else st2

/-- `handleDelete` of the full controller: resolve the target from the
argument or the focused node; when the delete collaborator succeeds,
clear whichever of the focused/selected/cut references named the deleted
node, then refresh the (former) parent. -/
def handleDelete (st : TreeState) (nodeId : Option String) (deleteOk : Bool)
    (load : String → List TreeNode) : TreeState :=
  match jsOrElse nodeId (st.focusedNode.map (fun n => n.id)) with
  | none => st
  | some targetNodeId =>
    if targetNodeId = "" then st
    else if deleteOk then
      let parentId :=
        match getParentId targetNodeId st.loadedChildren with
        | some p => if p = "" then VIRTUAL_ROOT_ID else p
        | none => VIRTUAL_ROOT_ID
      let st1 :=
        if st.focusedNode.map (fun n => n.id) = some targetNodeId then
          { st with focusedNode := none }
        else st
      let st2 :=
        if st1.selectedNode.map (fun n => n.id) = some targetNodeId then
          { st1 with selectedNode := none }
        else st1
      let st3 :=
        if st2.cutNodeId = some targetNodeId then { st2 with cutNodeId := none } else st2
      refreshParents st3 [parentId] false load
    else st

/-- One frontier step of `expandAll` (`expandLevel`): expand every node
of the frontier that advertises children, load each one's children (the
loader stands for the settled `Promise.all`; a load failure is the loader
returning `[]`), store the non-empty results and recurse into the
concatenation of the loaded children. The fuel bounds the recursion
depth, standing for the JS call stack. -/
def expandLevel (load : String → List TreeNode) : Nat → TreeState → List TreeNode → TreeState
  | fuel, st, nodes =>
    let nodesToExpand := nodes.filter (fun n => n.hasChildren)
    if nodesToExpand.length = 0 then st
    else
      let st1 := { st with
        expandedNodes := nodesToExpand.foldl (fun s n => insert n.id s) st.expandedNodes }
      let results := nodesToExpand.map (fun n => (n, load n.id))
      let st2 := results.foldl
        (fun s p =>
          if p.2.length > 0 then { s with loadedChildren := cacheSet s.loadedChildren p.1.id p.2 }
          else s) st1
      let nextLevelNodes := (results.map (fun p => if p.2.length > 0 then p.2 else [])).flatten
      if nextLevelNodes.length > 0 then
        match fuel with
        | 0 => st2
        | fuel + 1 => expandLevel load fuel st2 nextLevelNodes
      else st2
termination_by fuel _ _ => fuel

/-- `expandAll`: breadth-first expansion starting from the cached root
children; a no-op when the root children are not loaded. -/
def expandAll (st : TreeState) (fuel : Nat) (load : String → List TreeNode) : TreeState :=
  match cacheGet st.loadedChildren VIRTUAL_ROOT_ID with
  | some rootNodes => expandLevel load fuel st rootNodes
  | none => st

/-- `foldCycle`: the three-state rotation collapsed → top-level parents
expanded → fully expanded → collapsed. -/
def foldCycle (st : TreeState) (fuel : Nat) (load : String → List TreeNode) : TreeState :=
  match st.foldCycleState with
  | 0 =>
    match cacheGet st.loadedChildren VIRTUAL_ROOT_ID with
    | none => st
    | some rootNodes =>
      let topLevelParentIds := (rootNodes.filter (fun n => n.hasChildren)).map (fun n => n.id)
      { st with
        expandedNodes := (VIRTUAL_ROOT_ID :: topLevelParentIds).toFinset
        foldCycleState := 1 }
  | 1 => { expandAll st fuel load with foldCycleState := 2 }
  | 2 => { collapseAll st with foldCycleState := 0 }
  | _ + 3 => st

mutual

/-- The entry loop of `findPath` inside `getPathToNode`
(`tree/utils.ts` lines 97-125): iterate the remaining cache entries. The
result is `none` when the recursion exhausts the fuel (the JS stack
overflows), `some none` for the JS `null` result and `some (some path)`
for a found path. Mutually recursive with `fpChildren`, the inner loop
over one entry's children. -/
def fpEntries (cache : Cache) (targetId virtualRootId : String) :
    Nat → List String → List (String × List TreeNode) → Option (Option (List String))
  | _, _, [] => some none
  | fuel, currentPath, (parentId, children) :: rest =>
    fpChildren cache targetId virtualRootId fuel currentPath parentId children rest
termination_by fuel _ entries => (fuel, entries.length, 0)

/-- The child loop of `findPath`: check each child of the current entry;
on a hit return the accumulated path with the virtual root filtered out;
when the child has its own cache entry, re-run the whole entry scan with
the extended prefix (`findPath(targetId, pathToChild.slice(0, -1))`) at
one deeper stack level, and continue the loop only when that recursive
scan returned `null`. -/
def fpChildren (cache : Cache) (targetId virtualRootId : String) :
    Nat → List String → String → List TreeNode → List (String × List TreeNode) →
    Option (Option (List String))
  | fuel, currentPath, _, [], rest => fpEntries cache targetId virtualRootId fuel currentPath rest
  | fuel, currentPath, parentId, child :: cs, rest =>
    let pathToChild := currentPath ++ [parentId, child.id]
    if child.id = targetId then
      some (some (pathToChild.filter (fun id => id != virtualRootId)))
    else
      match cacheGet cache child.id with
      | some _ =>
        (match fuel with
         | 0 => none
         | f + 1 =>
           match fpEntries cache targetId virtualRootId f (currentPath ++ [parentId]) cache with
           | none => none
           | some (some foundPath) => some (some foundPath)
           | some none => fpChildren cache targetId virtualRootId (f + 1) currentPath parentId cs rest)
      | none => fpChildren cache targetId virtualRootId fuel currentPath parentId cs rest
termination_by fuel _ _ cs rest => (fuel, rest.length, cs.length + 1)

end

/-- The `getPathToNode` function of `tree/utils.ts`, with fuel standing
for the JS call stack depth available to `findPath`. -/
def getPathToNode (fuel : Nat) (nodeId : String) (loadedChildren : Cache)
    (virtualRootId : String) : Option (Option (List String)) :=
  fpEntries loadedChildren nodeId virtualRootId fuel [] loadedChildren

/-- `collapseAllExceptNode` of the full controller: with no node collapse
everything; otherwise resolve the path to the node and keep exactly the
virtual root plus the path without its last element expanded; fall back
to `collapseAll` when no path was found. A crash of the path search
(fuel exhaustion, `none`) leaves the state unchanged, as the JS exception
propagates before any state update. -/
def collapseAllExceptNode (st : TreeState) (fuel : Nat) (node : Option TreeNode) : TreeState :=
  match node with
  | none => collapseAll st
  | some n =>
    match getPathToNode fuel n.id st.loadedChildren VIRTUAL_ROOT_ID with
    | none => st
    | some none => collapseAll st
    | some (some pathToNode) =>
      { st with expandedNodes := (VIRTUAL_ROOT_ID :: pathToNode.dropLast).toFinset }

/-- `collapseAllExceptFocused`. -/
def collapseAllExceptFocused (st : TreeState) (fuel : Nat) : TreeState :=
  collapseAllExceptNode st fuel st.focusedNode

/-- `collapseAllExceptSelected`. -/
def collapseAllExceptSelected (st : TreeState) (fuel : Nat) : TreeState :=
  collapseAllExceptNode st fuel st.selectedNode

/-- `collapseSome` of the full controller: keep the virtual root plus the
ancestors of both the focused and the selected node (when distinct)
expanded; collapse everything when neither exists. A crash of either
path search leaves the state unchanged. -/
def collapseSome (st : TreeState) (fuel : Nat) : TreeState :=
  if st.focusedNode = none ∧ st.selectedNode = none then collapseAll st
  else
    let base : Finset String := {VIRTUAL_ROOT_ID}
    let step1 : Option (Finset String) :=
      match st.focusedNode with
      | none => some base
      | some f =>
        match getPathToNode fuel f.id st.loadedChildren VIRTUAL_ROOT_ID with
        | none => none
        | some none => some base
        | some (some p) => some (base ∪ p.dropLast.toFinset)
    match step1 with
    | none => st
    | some keep1 =>
      let step2 : Option (Finset String) :=
        match st.selectedNode with
        | none => some keep1
        | some s =>
          if st.focusedNode.map (fun n => n.id) = some s.id then some keep1
          else
            match getPathToNode fuel s.id st.loadedChildren VIRTUAL_ROOT_ID with
            | none => none
            | some none => some keep1
            | some (some p) => some (keep1 ∪ p.dropLast.toFinset)
      match step2 with
      | none => st
      | some keep => { st with expandedNodes := keep }

/-- The public operations of the controller (the ones the claim about the
virtual-root invariant ranges over, plus the state operations needed to
reach interesting states: focus/select/cut updates, children loads, the
pending-expansion flush and the root-focus effect). Collaborator
behaviour is part of the operation: the loader function and the boolean
mutation outcomes. -/
inductive TreeOp where
  | toggleExpand (nodeId : String)
  | childrenLoaded (nodeId : String) (children : List TreeNode)
  | focusNode (node : TreeNode)
  | selectNode (node : TreeNode)
  | cutMark (nodeId : String)
  | cutClear
  | expandAllOp (fuel : Nat) (load : String → List TreeNode)
  | collapseAllOp
  | collapseExceptFocusedOp (fuel : Nat)
  | collapseExceptSelectedOp (fuel : Nat)
  | collapseSomeOp (fuel : Nat)
  | foldCycleOp (fuel : Nat) (load : String → List TreeNode)
  | pasteOp (targetId : String) (moveOk : Bool) (load : String → List TreeNode)
  | moveToRootOp (nodeId : Option String) (moveOk : Bool) (load : String → List TreeNode)
  | deleteOp (nodeId : Option String) (deleteOk : Bool) (load : String → List TreeNode)
  | refreshTreeOp (load : String → List TreeNode)
  | flushPendingOp
  | rootFocusOp

/-- Interpretation of one public operation as the corresponding
controller handler. -/
def applyOp (st : TreeState) : TreeOp → TreeState
  | .toggleExpand nodeId => handleExpand st nodeId
  | .childrenLoaded nodeId children => handleChildrenLoaded st nodeId children
  | .focusNode node => handleFocus st node
  | .selectNode node => handleSelect st node
  | .cutMark nodeId => handleCut st nodeId
  | .cutClear => clearCut st
  | .expandAllOp fuel load => expandAll st fuel load
  | .collapseAllOp => collapseAll st
  | .collapseExceptFocusedOp fuel => collapseAllExceptFocused st fuel
  | .collapseExceptSelectedOp fuel => collapseAllExceptSelected st fuel
  | .collapseSomeOp fuel => collapseSome st fuel
  | .foldCycleOp fuel load => foldCycle st fuel load
  | .pasteOp targetId moveOk load => handlePaste st targetId moveOk load
  | .moveToRootOp nodeId moveOk load => handleMoveToRoot st nodeId moveOk load
  | .deleteOp nodeId deleteOk load => handleDelete st nodeId deleteOk load
  | .refreshTreeOp load => refreshTree st load
  | .flushPendingOp => flushPendingExpansions st
  | .rootFocusOp => rootFocusEffect st

/-- States reachable by arbitrary sequences of public operations. -/
inductive Reachable : TreeState → Prop where
  | init : Reachable initState
  | step {st : TreeState} (op : TreeOp) (h : Reachable st) : Reachable (applyOp st op)

/-- Restriction needed by the amended virtual-root invariant: the toggle
operation is never invoked with the virtual root id itself (in the
sources it is only ever called with ids of rendered or focused nodes, and
the virtual root is neither rendered nor focusable). -/
def opAllowed : TreeOp → Prop
  | .toggleExpand nodeId => nodeId ≠ VIRTUAL_ROOT_ID
  | _ => True

/-- States reachable when toggle-expand is never invoked on the virtual
root id. -/
inductive ReachableAmended : TreeState → Prop where
  | init : ReachableAmended initState
  | step {st : TreeState} (op : TreeOp) (hop : opAllowed op) (h : ReachableAmended st) :
      ReachableAmended (applyOp st op)

/-- A description of the loaded portion of a cache as a forest: each tree
carries its node, whether the cache holds an entry for it, and the
subtrees describing that entry's children (ignored when not loaded). -/
inductive LTree where
  | mk (node : TreeNode) (loaded : Bool) (children : List LTree)

/-- The node at the root of a loaded-forest tree. -/
def LTree.head : LTree → TreeNode
  | .mk n _ _ => n

/-- Whether the cache holds a children entry for this tree's node. -/
def LTree.isLoaded : LTree → Bool
  | .mk _ lded _ => lded

/-- The subtrees of a loaded-forest tree. -/
def LTree.kids : LTree → List LTree
  | .mk _ _ cs => cs

/-- The nodes at the roots of a forest. -/
def forestHeads (ts : List LTree) : List TreeNode :=
  ts.map LTree.head

/-- All trees of a forest, including nested ones. -/
def forestTrees : List LTree → List LTree
  | [] => []
  | .mk n lded cs :: rest =>
    .mk n lded cs :: (forestTrees cs ++ forestTrees rest)
termination_by ts => sizeOf ts
decreasing_by
  all_goals simp
  all_goals omega

/-- The depth (number of levels) of a forest. -/
def forestDepth : List LTree → Nat
  | [] => 0
  | .mk _ _ cs :: rest => max (1 + forestDepth cs) (forestDepth rest)
termination_by ts => sizeOf ts
decreasing_by
  all_goals simp
  all_goals omega

/-- The cache agrees with a forest tree at its root node: the node's
entry is exactly the list of its children's nodes when loaded, and absent
when not. -/
def entryOk (C : Cache) (t : LTree) : Prop :=
  cacheGet C t.head.id = if t.isLoaded then some (forestHeads t.kids) else none

/-- The visible pre-order traversal demanded by the specification: every
node of the forest is emitted at its recomputed level (parent's level
plus one), immediately followed by its visible descendants, and its
children are visible exactly when the node is loaded and is a member of
the expansion set. -/
def visFlatten (S : Finset String) : List LTree → Nat → List TreeNode
  | [], _ => []
  | .mk n lded cs :: rest, lvl =>
    { n with level := lvl } ::
      ((if lded = true ∧ n.id ∈ S then visFlatten S cs (lvl + 1) else []) ++
        visFlatten S rest lvl)
termination_by ts _ => sizeOf ts
decreasing_by
  all_goals simp
  all_goals omega

/-- Visibility of a node of the forest at a given depth: all its proper
ancestors within the forest are loaded members of the expansion set. -/
inductive Vis (S : Finset String) : List LTree → TreeNode → Nat → Prop where
  | here {ts : List LTree} {t : LTree} (hmem : t ∈ ts) : Vis S ts t.head 0
  | deeper {ts : List LTree} {t : LTree} {m : TreeNode} {d : Nat} (hmem : t ∈ ts)
      (hld : t.isLoaded = true) (hS : t.head.id ∈ S) (h : Vis S t.kids m d) :
      Vis S ts m (d + 1)

/-- A loader collaborator that always reports an empty children list. -/
def loadEmpty : String → List TreeNode :=
  fun _ => []

/-- Sample node: the "Documents" top-level folder. -/
def nDocs : TreeNode :=
  { id := "Docs", label := "Documents", hasChildren := true, level := 0 }

/-- Sample node: the "Pictures" top-level folder. -/
def nPics : TreeNode :=
  { id := "Pics", label := "Pictures", hasChildren := true, level := 0 }

/-- Sample node: the "Work" folder under Docs. -/
def nWork : TreeNode :=
  { id := "Work", label := "Work", hasChildren := true, level := 0 }

/-- Sample node: the "ProjA" leaf under Work; its stored level is
deliberately bogus to exercise the level recomputation. -/
def nProjA : TreeNode :=
  { id := "ProjA", label := "Project A", hasChildren := false, level := 99 }

/-- Sample node: a childless top-level "Music" entry. -/
def nMusic : TreeNode :=
  { id := "Music", label := "Music", hasChildren := false, level := 0 }

/-- The cache of the specification's collapse scenario: the virtual root
has children Docs and Pics, Docs has child Work, Work has child ProjA. -/
def exampleCacheC3 : Cache :=
  [(VIRTUAL_ROOT_ID, [nDocs, nPics]), ("Docs", [nWork]), ("Work", [nProjA])]

/-- A state with the root children `[Docs, Music]` loaded and nothing
focused. -/
def stRoot : TreeState :=
  { initState with loadedChildren := [(VIRTUAL_ROOT_ID, [nDocs, nMusic])] }

/-- The collapse scenario state: the cache of `exampleCacheC3`, ProjA
focused, the path to it expanded. -/
def stC3 : TreeState :=
  { initState with
    loadedChildren := exampleCacheC3
    focusedNode := some nProjA
    expandedNodes := {VIRTUAL_ROOT_ID, "Docs", "Work"} }

/-- A state for the cut/paste round trip: ProjA cached under Docs. -/
def stC4 : TreeState :=
  { initState with loadedChildren := [(VIRTUAL_ROOT_ID, [nDocs, nPics]), ("Docs", [nProjA])] }

/-- The post-move backend for the round trip: ProjA now lives under Pics. -/
def loadC4 : String → List TreeNode :=
  fun nodeId => if nodeId = "Pics" then [nProjA] else []

/-- A state with a live cut marker on Work and focus on ProjA, used to
compare move-to-root with paste. -/
def stC8 : TreeState :=
  { initState with cutNodeId := some "Work", focusedNode := some nProjA }

/-- A loader for the fold-cycle scenario: Docs contains ProjA. -/
def loadC9 : String → List TreeNode :=
  fun nodeId => if nodeId = "Docs" then [nProjA] else []

/-- The flat example dataset row for Project A. -/
def dataC6 : List FlatItem :=
  [{ id := "1-1-1", label := "Project A", parent_id := some "1-1" }]

/-- The loaded-forest description of `exampleCacheC3`: Docs with Work
with unloaded ProjA, and unloaded Pics. -/
def forestC1 : List LTree :=
  [LTree.mk nDocs true [LTree.mk nWork true [LTree.mk nProjA false []]],
   LTree.mk nPics false []]

/-! ### Helper lemmas -/

/-- A paste whose move collaborator reports failure changes nothing. -/
lemma handlePaste_moveFailed (st : TreeState) (targetId : String)
    (load : String → List TreeNode) : handlePaste st targetId false load = st := by
  unfold handlePaste
  cases st.cutNodeId with
  | none => rfl
  | some c => by_cases hc : c = "" <;> simp [hc]

/-! ### Claim theorems -/

/-- C2: for every cut node A and paste target, when the move collaborator
returns false the paste leaves `cutNodeId` equal to A and the load cache
and the expansion set exactly as they were. -/
theorem pasteFailure_preservesState (st : TreeState) (a targetId : String)
    (load : String → List TreeNode) (hcut : st.cutNodeId = some a) :
    (handlePaste st targetId false load).cutNodeId = some a
    ∧ (handlePaste st targetId false load).loadedChildren = st.loadedChildren
    ∧ (handlePaste st targetId false load).expandedNodes = st.expandedNodes := by
  rw [handlePaste_moveFailed]
  exact ⟨hcut, rfl, rfl⟩

/-- Witness for C2 at a concrete cut state. -/
theorem pasteFailure_preservesState_witness :
    (handlePaste { stRoot with cutNodeId := some "Docs" } "Music" false loadEmpty).cutNodeId
        = some "Docs"
    ∧ (handlePaste { stRoot with cutNodeId := some "Docs" } "Music" false loadEmpty).loadedChildren
        = { stRoot with cutNodeId := some "Docs" }.loadedChildren
    ∧ (handlePaste { stRoot with cutNodeId := some "Docs" } "Music" false loadEmpty).expandedNodes
        = { stRoot with cutNodeId := some "Docs" }.expandedNodes :=
  pasteFailure_preservesState { stRoot with cutNodeId := some "Docs" } "Docs" "Music" loadEmpty rfl

/-- C6: committing a rename with a label that is empty or whitespace-only
is rejected by the rename collaborator, so the controller neither changes
any label nor leaves edit mode: state and dataset are untouched. -/
theorem renameCommit_blankRejected (st : TreeState) (data : List FlatItem)
    (refreshTreeAfterRename : Bool) (load : String → List TreeNode)
    (nodeId newLabel : String) (hblank : jsTrim newLabel = "") :
    handleRenameCommit st data refreshTreeAfterRename load nodeId newLabel = (st, data) := by
  unfold handleRenameCommit exHandleRename
  cases h : data.find? (fun it => it.id = nodeId) <;> simp [h, hblank]

/-- Witness for C6: a whitespace-only rename of Project A while it is
being edited changes nothing; the label mixes ASCII spaces with the
Unicode space separators U+2000 and U+3000. -/
theorem renameCommit_blankRejected_witness :
    handleRenameCommit { initState with editingNodeId := some "1-1-1" } dataC6 true loadEmpty
        "1-1-1" " \u2000\u3000 "
      = ({ initState with editingNodeId := some "1-1-1" }, dataC6) :=
  renameCommit_blankRejected { initState with editingNodeId := some "1-1-1" } dataC6 true
    loadEmpty "1-1-1" " \u2000\u3000 " (by decide)

/-- C10: when the cache holds a non-empty root children list and no node
is focused, the root-load effect focuses the first root child; when some
node is already focused, the effect changes nothing. -/
theorem rootLoad_focusesFirstChild (st : TreeState) (r : TreeNode) (rest : List TreeNode)
    (hget : cacheGet st.loadedChildren VIRTUAL_ROOT_ID = some (r :: rest)) :
    (st.focusedNode = none → (rootFocusEffect st).focusedNode = some r)
    ∧ (∀ f, st.focusedNode = some f → rootFocusEffect st = st) := by
  constructor
  · intro hf
    simp [rootFocusEffect, hget, hf]
  · intro f hf
    simp [rootFocusEffect, hget, hf]

/-- Witness for C10: the first root child Docs gets focused in the
unfocused state, and a state focused on Work is left unchanged. -/
theorem rootLoad_focusesFirstChild_witness :
    (rootFocusEffect stRoot).focusedNode = some nDocs
    ∧ rootFocusEffect { stRoot with focusedNode := some nWork }
        = { stRoot with focusedNode := some nWork } :=
  ⟨(rootLoad_focusesFirstChild stRoot nDocs [nMusic] rfl).1 rfl,
   (rootLoad_focusesFirstChild { stRoot with focusedNode := some nWork } nDocs [nMusic] rfl).2
     nWork rfl⟩

/-- `refreshParents` never touches the focused node. -/
lemma refreshParents_focusedNode (st : TreeState) (parentIds : List String)
    (forceExpand : Bool) (load : String → List TreeNode) :
    (refreshParents st parentIds forceExpand load).focusedNode = st.focusedNode := by
  unfold refreshParents
  dsimp only
  split <;> split <;> rfl

/-- `refreshParents` never touches the selected node. -/
lemma refreshParents_selectedNode (st : TreeState) (parentIds : List String)
    (forceExpand : Bool) (load : String → List TreeNode) :
    (refreshParents st parentIds forceExpand load).selectedNode = st.selectedNode := by
  unfold refreshParents
  dsimp only
  split <;> split <;> rfl

/-- `refreshParents` never touches the cut marker. -/
lemma refreshParents_cutNodeId (st : TreeState) (parentIds : List String)
    (forceExpand : Bool) (load : String → List TreeNode) :
    (refreshParents st parentIds forceExpand load).cutNodeId = st.cutNodeId := by
  unfold refreshParents
  dsimp only
  split <;> split <;> rfl

/-- C7: when the delete collaborator succeeds for node X, the controller
clears whichever of the focused/selected/cut references named X and
leaves each of the three references unchanged when it named some other
node (or nothing). -/
theorem delete_clearsReferencesToDeleted (st : TreeState) (x : String)
    (load : String → List TreeNode) (hx : x ≠ "") :
    (handleDelete st (some x) true load).focusedNode
        = (if st.focusedNode.map (fun n => n.id) = some x then none else st.focusedNode)
    ∧ (handleDelete st (some x) true load).selectedNode
        = (if st.selectedNode.map (fun n => n.id) = some x then none else st.selectedNode)
    ∧ (handleDelete st (some x) true load).cutNodeId
        = (if st.cutNodeId = some x then none else st.cutNodeId) := by
  obtain ⟨sel, foc, exp, lc, fcs, cut, ed, pf, pe⟩ := st
  unfold handleDelete jsOrElse
  dsimp only
  rw [if_neg hx]
  dsimp only
  rw [if_neg hx, if_pos rfl]
  refine ⟨?_, ?_, ?_⟩
  · rw [refreshParents_focusedNode]
    split_ifs <;> rfl
  · rw [refreshParents_selectedNode]
    split_ifs <;> rfl
  · rw [refreshParents_cutNodeId]
    split_ifs <;> rfl

/-- Witness for C7: deleting the focused and cut ProjA clears focus and
cut but leaves the unrelated selection on Docs. -/
theorem delete_clearsReferencesToDeleted_witness :
    (handleDelete
        { stC3 with cutNodeId := some "ProjA", selectedNode := some nDocs }
        (some "ProjA") true loadEmpty).focusedNode = none
    ∧ (handleDelete
        { stC3 with cutNodeId := some "ProjA", selectedNode := some nDocs }
        (some "ProjA") true loadEmpty).selectedNode = some nDocs
    ∧ (handleDelete
        { stC3 with cutNodeId := some "ProjA", selectedNode := some nDocs }
        (some "ProjA") true loadEmpty).cutNodeId = none := by
  have h := delete_clearsReferencesToDeleted
    { stC3 with cutNodeId := some "ProjA", selectedNode := some nDocs } "ProjA" loadEmpty
    (by decide)
  refine ⟨h.1.trans (by decide), h.2.1.trans (by decide), h.2.2.trans (by decide)⟩

/-- C8 counterexample: `handleMoveToRoot` is not paste-to-root. In a
state with Work cut and ProjA focused, a successful move-to-root keeps
`cutNodeId` set (whereas a successful paste to the virtual root clears
it), and with no argument it moves the focused node ProjA, not the cut
node Work. -/
theorem moveToRoot_notPaste_counterexample :
    (handleMoveToRoot stC8 (some "Docs") true loadEmpty).cutNodeId = some "Work"
    ∧ (handlePaste stC8 VIRTUAL_ROOT_ID true loadEmpty).cutNodeId = none
    ∧ (handleMoveToRoot stC8 none true loadEmpty).pendingFocusNodeId = some "ProjA" := by
  refine ⟨?_, ?_, ?_⟩ <;> decide

/-- C8 amended: move-to-root targets the node given by its argument or,
absent one, the focused node; with that node written into the cut marker,
it performs exactly the collaborator call and cache refreshes of a paste
to the virtual root (whose extra re-expansion of the virtual root is a
no-op since the virtual root is already expanded), except that the cut
marker is left as it was rather than cleared on success. -/
theorem moveToRoot_eq_pasteToRoot_keepingCut (st : TreeState) (nodeId : Option String)
    (n : String) (load : String → List TreeNode) (ok : Bool)
    (hres : jsOrElse nodeId (st.focusedNode.map (fun nd => nd.id)) = some n)
    (hn : n ≠ "") (hvr : VIRTUAL_ROOT_ID ∈ st.expandedNodes) :
    handleMoveToRoot st nodeId ok load =
      { handlePaste { st with cutNodeId := some n } VIRTUAL_ROOT_ID ok load with
        cutNodeId := st.cutNodeId } := by
  obtain ⟨sel, foc, exp, lc, fcs, cut, ed, pf, pe⟩ := st
  have hins : insert VIRTUAL_ROOT_ID exp = exp := Finset.insert_eq_self.mpr hvr
  unfold handleMoveToRoot handlePaste refreshParentChildren
  dsimp only at hres ⊢
  rw [hres]
  dsimp only
  rw [if_neg hn]
  cases ok with
  | false => simp [hn]
  | true =>
    simp only [if_neg hn, reduceIte]
    rw [hins]
    cases hsp : getParentId n lc with
    | none => simp
    | some sp =>
      by_cases hsp2 : sp = "" ∨ sp = VIRTUAL_ROOT_ID
      · simp [hsp2]
      · simp [hsp2, hn]

/-- Witness for the amended C8 statement at the concrete cut state. -/
theorem moveToRoot_eq_pasteToRoot_keepingCut_witness :
    handleMoveToRoot stC8 (some "Docs") true loadEmpty =
      { handlePaste { stC8 with cutNodeId := some "Docs" } VIRTUAL_ROOT_ID true loadEmpty with
        cutNodeId := stC8.cutNodeId } :=
  moveToRoot_eq_pasteToRoot_keepingCut stC8 (some "Docs") "Docs" loadEmpty true
    (by decide) (by decide) (by decide)

/-- The entry written by `cacheSet` is a member of the result. -/
lemma cacheSet_mem_self (c : Cache) (k : String) (v : List TreeNode) :
    (k, v) ∈ cacheSet c k v := by
  unfold cacheSet
  split
  · rename_i h
    unfold cacheHas at h
    rw [List.any_eq_true] at h
    obtain ⟨e, he, hk⟩ := h
    refine List.mem_map.2 ⟨e, he, ?_⟩
    simp only [decide_eq_true_eq] at hk
    simp [hk]
  · exact List.mem_append.2 (Or.inr (List.mem_singleton.2 rfl))

/-- Entries of `cacheSet c k v` are the written entry or entries of `c`
with a different key. -/
lemma cacheSet_mem_elim (c : Cache) (k : String) (v : List TreeNode) (e : String × List TreeNode)
    (he : e ∈ cacheSet c k v) : e = (k, v) ∨ (e ∈ c ∧ e.1 ≠ k) := by
  unfold cacheSet at he
  split at he
  · obtain ⟨a, ha, hae⟩ := List.mem_map.1 he
    by_cases hk : a.1 = k
    · left
      rw [← hae]
      simp [hk]
    · right
      rw [← hae]
      simp only [if_neg hk]
      exact ⟨ha, hk⟩
  · rename_i h
    rcases List.mem_append.1 he with h1 | h1
    · right
      refine ⟨h1, ?_⟩
      intro hk
      apply h
      unfold cacheHas
      rw [List.any_eq_true]
      exact ⟨e, h1, by simp [hk]⟩
    · left
      exact List.mem_singleton.1 h1

/-- An entry with a different key survives `cacheSet`. -/
lemma cacheSet_mem_of_ne (c : Cache) (k : String) (v : List TreeNode)
    (e : String × List TreeNode) (he : e ∈ c) (hne : e.1 ≠ k) : e ∈ cacheSet c k v := by
  unfold cacheSet
  split
  · exact List.mem_map.2 ⟨e, he, by simp [hne]⟩
  · exact List.mem_append.2 (Or.inl he)

/-- `getParentId` returns the key P when some entry with key P contains
the node and every entry containing the node has key P. -/
lemma getParentId_eq_of_unique (c : Cache) (a p : String)
    (hex : ∃ v, (p, v) ∈ c ∧ idsContain v a = true)
    (huniq : ∀ e ∈ c, idsContain e.2 a = true → e.1 = p) :
    getParentId a c = some p := by
  induction c with
  | nil =>
    obtain ⟨v, hv, _⟩ := hex
    cases hv
  | cons e rest ih =>
    by_cases h : idsContain e.2 a = true
    · have hep : e.1 = p := huniq e (List.mem_cons_self e rest) h
      unfold getParentId
      rw [List.find?_cons_of_pos _ (by simpa using h)]
      simp [hep]
    · obtain ⟨v, hv, hva⟩ := hex
      have hvrest : (p, v) ∈ rest := by
        rcases List.mem_cons.1 hv with h1 | h1
        · exfalso
          apply h
          rw [← h1]
          exact hva
        · exact h1
      have := ih ⟨v, hvrest, hva⟩ (fun e2 he2 h2 => huniq e2 (List.mem_cons_of_mem e he2) h2)
      unfold getParentId at this ⊢
      rw [List.find?_cons_of_neg _ (by simpa using h)]
      exact this

/-- C4: a cut of node A followed by a paste to target P2 whose move
collaborator succeeds and whose reloads complete yields a cache in which
`getParentId` resolves A's parent as P2, and the cut marker is cleared.
Hypotheses: A sits (only) under P1 in the pre-paste cache, and the
reloaded backend places A under P2 and no longer under P1. -/
theorem cutPaste_roundTrip (st : TreeState) (a p1 p2 : String)
    (load : String → List TreeNode)
    (ha : a ≠ "") (hp1 : getParentId a st.loadedChildren = some p1) (hp1ne : p1 ≠ "")
    (huniq : ∀ e ∈ st.loadedChildren, idsContain e.2 a = true → e.1 = p1)
    (hnew : idsContain (load p2) a = true)
    (hold : p1 ≠ p2 → idsContain (load p1) a = false) :
    getParentId a (handlePaste (handleCut st a) p2 true load).loadedChildren = some p2
    ∧ (handlePaste (handleCut st a) p2 true load).cutNodeId = none := by
  obtain ⟨sel, foc, exp, lc, fcs, cut, ed, pf, pe⟩ := st
  dsimp only at hp1 huniq
  unfold handleCut handlePaste refreshParentChildren
  dsimp only
  rw [hp1]
  simp only [if_neg ha, reduceIte]
  by_cases hc : p1 = "" ∨ p1 = p2
  · rcases hc with hc | hc
    · exact absurd hc hp1ne
    · subst hc
      rw [if_pos (Or.inr rfl)]
      dsimp only
      constructor
      · apply getParentId_eq_of_unique
        · exact ⟨load p1, cacheSet_mem_self lc p1 (load p1), hnew⟩
        · intro e he hea
          rcases cacheSet_mem_elim lc p1 (load p1) e he with h1 | ⟨h1, h2⟩
          · rw [h1]
          · exact absurd (huniq e h1 hea) h2
      · trivial
  · rw [if_neg hc]
    push_neg at hc
    obtain ⟨hc1, hc2⟩ := hc
    dsimp only
    constructor
    · apply getParentId_eq_of_unique
      · refine ⟨load p2, ?_, hnew⟩
        apply cacheSet_mem_of_ne
        · exact cacheSet_mem_self lc p2 (load p2)
        · simpa using fun h => hc2 h.symm
      · intro e he hea
        rcases cacheSet_mem_elim _ p1 (load p1) e he with h1 | ⟨h1, h2⟩
        · exfalso
          rw [h1] at hea
          dsimp only at hea
          rw [hold hc2] at hea
          exact Bool.false_ne_true hea
        · rcases cacheSet_mem_elim lc p2 (load p2) e h1 with h3 | ⟨h3, h4⟩
          · rw [h3]
          · exact absurd (huniq e h3 hea) h2
    · trivial

/-- Witness for C4: ProjA cached under Docs, cut and pasted to Pics with
the post-move backend `loadC4`; afterwards its parent resolves to Pics
and the cut marker is gone. -/
theorem cutPaste_roundTrip_witness :
    getParentId "ProjA" (handlePaste (handleCut stC4 "ProjA") "Pics" true loadC4).loadedChildren
        = some "Pics"
    ∧ (handlePaste (handleCut stC4 "ProjA") "Pics" true loadC4).cutNodeId = none :=
  cutPaste_roundTrip stC4 "ProjA" "Docs" "Pics" loadC4 (by decide) (by decide) (by decide)
    (by decide) (by decide) (fun _ => by decide)

/-- `foldCycle` from state 0 with loaded root children: expand exactly
the top-level nodes that advertise children and move to state 1. -/
lemma foldCycle_state0 (st : TreeState) (fuel : Nat) (load : String → List TreeNode)
    (rs : List TreeNode) (h0 : st.foldCycleState = 0)
    (hroot : cacheGet st.loadedChildren VIRTUAL_ROOT_ID = some rs) :
    foldCycle st fuel load =
      { st with
        expandedNodes :=
          (VIRTUAL_ROOT_ID :: (rs.filter (fun n => n.hasChildren)).map (fun n => n.id)).toFinset
        foldCycleState := 1 } := by
  unfold foldCycle
  rw [h0, hroot]

/-- `foldCycle` from state 1: run `expandAll` and move to state 2. -/
lemma foldCycle_state1 (st : TreeState) (fuel : Nat) (load : String → List TreeNode)
    (h1 : st.foldCycleState = 1) :
    foldCycle st fuel load = { expandAll st fuel load with foldCycleState := 2 } := by
  unfold foldCycle
  rw [h1]

/-- `foldCycle` from state 2: collapse everything and move to state 0. -/
lemma foldCycle_state2 (st : TreeState) (fuel : Nat) (load : String → List TreeNode)
    (h2 : st.foldCycleState = 2) :
    foldCycle st fuel load =
      { st with expandedNodes := {VIRTUAL_ROOT_ID}, foldCycleState := 0 } := by
  unfold foldCycle collapseAll
  rw [h2]

/-- C9: from fold-cycle state 0 with root children loaded, the first call
expands exactly the virtual root plus the top-level nodes with
`hasChildren`; the second call is an `expandAll`; the third collapses to
the virtual root alone; and a fourth call repeats the first transition
with respect to the then-current root children. -/
theorem foldCycle_progression (st : TreeState) (fuel : Nat) (load : String → List TreeNode)
    (rs : List TreeNode) (h0 : st.foldCycleState = 0)
    (hroot : cacheGet st.loadedChildren VIRTUAL_ROOT_ID = some rs) :
    (foldCycle st fuel load).expandedNodes
        = (VIRTUAL_ROOT_ID :: (rs.filter (fun n => n.hasChildren)).map (fun n => n.id)).toFinset
    ∧ (foldCycle st fuel load).foldCycleState = 1
    ∧ foldCycle (foldCycle st fuel load) fuel load
        = { expandAll (foldCycle st fuel load) fuel load with foldCycleState := 2 }
    ∧ (foldCycle (foldCycle (foldCycle st fuel load) fuel load) fuel load).expandedNodes
        = {VIRTUAL_ROOT_ID}
    ∧ (foldCycle (foldCycle (foldCycle st fuel load) fuel load) fuel load).foldCycleState = 0
    ∧ (∀ rs3,
        cacheGet
            (foldCycle (foldCycle (foldCycle st fuel load) fuel load) fuel load).loadedChildren
            VIRTUAL_ROOT_ID = some rs3 →
        (foldCycle (foldCycle (foldCycle (foldCycle st fuel load) fuel load) fuel load) fuel
              load).expandedNodes
            = (VIRTUAL_ROOT_ID ::
                (rs3.filter (fun n => n.hasChildren)).map (fun n => n.id)).toFinset
        ∧ (foldCycle (foldCycle (foldCycle (foldCycle st fuel load) fuel load) fuel load) fuel
              load).foldCycleState = 1) := by
  have hA := foldCycle_state0 st fuel load rs h0 hroot
  have hB : foldCycle (foldCycle st fuel load) fuel load
      = { expandAll (foldCycle st fuel load) fuel load with foldCycleState := 2 } := by
    apply foldCycle_state1
    rw [hA]
  have hC : foldCycle (foldCycle (foldCycle st fuel load) fuel load) fuel load
      = { foldCycle (foldCycle st fuel load) fuel load with
          expandedNodes := {VIRTUAL_ROOT_ID}, foldCycleState := 0 } := by
    apply foldCycle_state2
    rw [hB]
  refine ⟨?_, ?_, hB, ?_, ?_, ?_⟩
  · rw [hA]
  · rw [hA]
  · rw [hC]
  · rw [hC]
  · intro rs3 hrs3
    have hD := foldCycle_state0 (foldCycle (foldCycle (foldCycle st fuel load) fuel load) fuel
      load) fuel load rs3 (by rw [hC]) hrs3
    rw [hD]
    exact ⟨rfl, rfl⟩

/-- Witness for C9 on a concrete two-entry root: only Docs has children,
so the first call expands the virtual root plus Docs, and the third call
leaves only the virtual root expanded. -/
theorem foldCycle_progression_witness :
    (foldCycle stRoot 2 loadC9).expandedNodes
        = (VIRTUAL_ROOT_ID ::
            (([nDocs, nMusic].filter (fun n => n.hasChildren)).map (fun n => n.id))).toFinset
    ∧ (foldCycle (foldCycle (foldCycle stRoot 2 loadC9) 2 loadC9) 2 loadC9).expandedNodes
        = {VIRTUAL_ROOT_ID} :=
  ⟨(foldCycle_progression stRoot 2 loadC9 [nDocs, nMusic] rfl rfl).1,
   (foldCycle_progression stRoot 2 loadC9 [nDocs, nMusic] rfl rfl).2.2.2.1⟩

/-- On the collapse-scenario cache, the entry scan of `findPath` for
target ProjA exhausts any amount of fuel: the first scanned child (Docs)
has a cache entry, so the code immediately re-runs the whole scan with a
longer prefix and never makes progress. -/
lemma fpEntries_exampleC3_diverges (fuel : Nat) : ∀ (path : List String),
    fpEntries exampleCacheC3 "ProjA" VIRTUAL_ROOT_ID fuel path exampleCacheC3 = none := by
  induction fuel with
  | zero =>
    intro path
    simp [fpEntries, fpChildren, cacheGet, List.find?, exampleCacheC3, nDocs, nPics,
      VIRTUAL_ROOT_ID]
  | succ f ih =>
    intro path
    have ih2 := ih
    simp only [exampleCacheC3, VIRTUAL_ROOT_ID, nDocs, nPics, nWork, nProjA] at ih2 ⊢
    simp [fpEntries, fpChildren, cacheGet, List.find?, ih2]

/-- C3 (code bug): with the cache holding exactly the edges
virtual-root → [Docs, Pics], Docs → [Work], Work → [ProjA] and ProjA
focused, the path search of `getPathToNode` never terminates (it returns
the fuel-exhaustion marker for every stack budget), so
`collapseAllExceptFocused` crashes with a stack overflow and leaves the
expansion set unchanged instead of producing
{virtual root, Docs, Work}. -/
theorem collapseExceptFocused_pathSearch_diverges :
    (∀ fuel, getPathToNode fuel "ProjA" exampleCacheC3 VIRTUAL_ROOT_ID = none)
    ∧ (∀ fuel, collapseAllExceptFocused stC3 fuel = stC3) := by
  constructor
  · intro fuel
    exact fpEntries_exampleC3_diverges fuel []
  · intro fuel
    unfold collapseAllExceptFocused collapseAllExceptNode getPathToNode
    rw [show stC3.focusedNode = some nProjA from rfl,
      show stC3.loadedChildren = exampleCacheC3 from rfl]
    dsimp only
    rw [show nProjA.id = "ProjA" from rfl, fpEntries_exampleC3_diverges fuel []]

/-- Folding id-insertions over a node list only grows a finset. -/
lemma subset_foldl_insertIds (l : List TreeNode) : ∀ (s : Finset String),
    s ⊆ l.foldl (fun s n => insert n.id s) s := by
  induction l with
  | nil => intro s; exact Finset.Subset.refl s
  | cons n rest ih =>
    intro s
    exact Finset.Subset.trans (Finset.subset_insert n.id s) (ih (insert n.id s))

/-- Erasing only ids different from the virtual root keeps the virtual
root in the set. -/
lemma mem_foldl_eraseNonRoot (l : List String) : ∀ (s : Finset String),
    VIRTUAL_ROOT_ID ∈ s →
    VIRTUAL_ROOT_ID ∈
      l.foldl (fun s id => if id ≠ VIRTUAL_ROOT_ID then s.erase id else s) s := by
  induction l with
  | nil => intro s h; exact h
  | cons id rest ih =>
    intro s h
    refine ih _ ?_
    dsimp only
    by_cases hid : id ≠ VIRTUAL_ROOT_ID
    · rw [if_pos hid]
      exact Finset.mem_erase.mpr ⟨fun hvr => hid hvr.symm, h⟩
    · rw [if_neg hid]
      exact h

/-- Flushing a queue of only-true pending expansions keeps the virtual
root in the set. -/
lemma mem_foldl_flushTrue (l : List (String × Bool)) : ∀ (s : Finset String),
    VIRTUAL_ROOT_ID ∈ s → (∀ p ∈ l, p.2 = true) →
    VIRTUAL_ROOT_ID ∈
      l.foldl (fun acc p => if p.2 then insert p.1 acc else acc.erase p.1) s := by
  induction l with
  | nil => intro s h _; exact h
  | cons p rest ih =>
    intro s h hall
    refine ih _ ?_ (fun q hq => hall q (List.mem_cons_of_mem p hq))
    dsimp only
    rw [if_pos (hall p (List.mem_cons_self p rest))]
    exact Finset.mem_insert_of_mem h

/-- Storing loaded children across a frontier changes neither the
expansion set nor the pending-expansion queue. -/
lemma storeResults_proj (results : List (TreeNode × List TreeNode)) : ∀ (s : TreeState),
    ((results.foldl
        (fun s p =>
          if p.2.length > 0 then { s with loadedChildren := cacheSet s.loadedChildren p.1.id p.2 }
          else s) s).expandedNodes = s.expandedNodes
    ∧ (results.foldl
        (fun s p =>
          if p.2.length > 0 then { s with loadedChildren := cacheSet s.loadedChildren p.1.id p.2 }
          else s) s).pendingExpansions = s.pendingExpansions) := by
  induction results with
  | nil => intro s; exact ⟨rfl, rfl⟩
  | cons p rest ih =>
    intro s
    rcases ih (if p.2.length > 0 then
      { s with loadedChildren := cacheSet s.loadedChildren p.1.id p.2 } else s) with ⟨ha, hb⟩
    constructor
    · rw [List.foldl_cons, ha]
      split <;> rfl
    · rw [List.foldl_cons, hb]
      split <;> rfl

/-- `expandLevel` only grows the expansion set and never touches the
pending-expansion queue. -/
lemma expandLevel_expansionMono (load : String → List TreeNode) : ∀ (fuel : Nat)
    (st : TreeState) (nodes : List TreeNode),
    st.expandedNodes ⊆ (expandLevel load fuel st nodes).expandedNodes
    ∧ (expandLevel load fuel st nodes).pendingExpansions = st.pendingExpansions := by
  intro fuel
  induction fuel with
  | zero =>
    intro st nodes
    rw [expandLevel]
    dsimp only
    split
    · exact ⟨Finset.Subset.refl _, rfl⟩
    · split
      all_goals
        exact ⟨by rw [(storeResults_proj _ _).1]; exact subset_foldl_insertIds _ _,
          by rw [(storeResults_proj _ _).2]⟩
  | succ f ih =>
    intro st nodes
    rw [expandLevel]
    dsimp only
    split
    · exact ⟨Finset.Subset.refl _, rfl⟩
    · split
      · constructor
        · refine Finset.Subset.trans ?_ (ih _ _).1
          rw [(storeResults_proj _ _).1]
          exact subset_foldl_insertIds _ _
        · rw [(ih _ _).2, (storeResults_proj _ _).2]
      · exact ⟨by rw [(storeResults_proj _ _).1]; exact subset_foldl_insertIds _ _,
          by rw [(storeResults_proj _ _).2]⟩

/-- `refreshParentChildren` only grows the expansion set and never
touches the pending-expansion queue. -/
lemma refreshParentChildren_expansionMono (st : TreeState) (parentId : String) (expand : Bool)
    (focusChild : Option String) (load : String → List TreeNode) :
    st.expandedNodes ⊆ (refreshParentChildren st parentId expand focusChild load).expandedNodes
    ∧ (refreshParentChildren st parentId expand focusChild load).pendingExpansions
        = st.pendingExpansions := by
  cases focusChild with
  | none =>
    unfold refreshParentChildren
    dsimp only
    cases expand with
    | false => exact ⟨Finset.Subset.refl _, rfl⟩
    | true => exact ⟨Finset.subset_insert _ _, rfl⟩
  | some fc =>
    unfold refreshParentChildren
    dsimp only
    by_cases hfc : fc = ""
    · rw [if_pos hfc]
      cases expand with
      | false => exact ⟨Finset.Subset.refl _, rfl⟩
      | true => exact ⟨Finset.subset_insert _ _, rfl⟩
    · rw [if_neg hfc]
      cases expand with
      | false => exact ⟨Finset.Subset.refl _, rfl⟩
      | true => exact ⟨Finset.subset_insert _ _, rfl⟩

/-- `refreshParents` keeps the virtual root expanded and queues only
positive pending expansions. -/
lemma refreshParents_inv (st : TreeState) (parentIds : List String) (forceExpand : Bool)
    (load : String → List TreeNode)
    (h1 : VIRTUAL_ROOT_ID ∈ st.expandedNodes)
    (h2 : ∀ p ∈ st.pendingExpansions, p.2 = true) :
    VIRTUAL_ROOT_ID ∈ (refreshParents st parentIds forceExpand load).expandedNodes
    ∧ ∀ p ∈ (refreshParents st parentIds forceExpand load).pendingExpansions, p.2 = true := by
  unfold refreshParents
  dsimp only
  split
  · split
    · constructor
      · exact mem_foldl_eraseNonRoot _ _ h1
      · intro p hp
        obtain ⟨id, _, hid⟩ := List.mem_map.1 hp
        rw [← hid]
    · exact ⟨mem_foldl_eraseNonRoot _ _ h1, h2⟩
  · split
    · constructor
      · exact mem_foldl_eraseNonRoot _ _ h1
      · intro p hp
        obtain ⟨id, _, hid⟩ := List.mem_map.1 hp
        rw [← hid]
    · exact ⟨mem_foldl_eraseNonRoot _ _ h1, h2⟩

/-- Every public operation allowed by the amended claim preserves the
virtual-root-expanded invariant (strengthened with the fact that the
pending queue only ever holds positive expansions). -/
lemma applyOp_inv (st : TreeState) (op : TreeOp) (hop : opAllowed op)
    (h1 : VIRTUAL_ROOT_ID ∈ st.expandedNodes)
    (h2 : ∀ p ∈ st.pendingExpansions, p.2 = true) :
    VIRTUAL_ROOT_ID ∈ (applyOp st op).expandedNodes
    ∧ ∀ p ∈ (applyOp st op).pendingExpansions, p.2 = true := by
  cases op with
  | toggleExpand nodeId =>
    have hne : nodeId ≠ VIRTUAL_ROOT_ID := hop
    simp only [applyOp]
    unfold handleExpand
    split
    · exact ⟨Finset.mem_erase.mpr ⟨fun h => hne h.symm, h1⟩, h2⟩
    · exact ⟨Finset.mem_insert_of_mem h1, h2⟩
  | childrenLoaded nodeId children => exact ⟨h1, h2⟩
  | focusNode node => exact ⟨h1, h2⟩
  | selectNode node => exact ⟨h1, h2⟩
  | cutMark nodeId => exact ⟨h1, h2⟩
  | cutClear => exact ⟨h1, h2⟩
  | expandAllOp fuel load =>
    simp only [applyOp]
    unfold expandAll
    split
    · rcases expandLevel_expansionMono load fuel st _ with ⟨ha, hb⟩
      refine ⟨ha h1, ?_⟩
      rw [hb]
      exact h2
    · exact ⟨h1, h2⟩
  | collapseAllOp => exact ⟨Finset.mem_singleton_self _, h2⟩
  | collapseExceptFocusedOp fuel =>
    simp only [applyOp]
    unfold collapseAllExceptFocused collapseAllExceptNode collapseAll
    split
    · exact ⟨Finset.mem_singleton_self _, h2⟩
    · split
      · exact ⟨h1, h2⟩
      · exact ⟨Finset.mem_singleton_self _, h2⟩
      · exact ⟨by simp, h2⟩
  | collapseExceptSelectedOp fuel =>
    simp only [applyOp]
    unfold collapseAllExceptSelected collapseAllExceptNode collapseAll
    split
    · exact ⟨Finset.mem_singleton_self _, h2⟩
    · split
      · exact ⟨h1, h2⟩
      · exact ⟨Finset.mem_singleton_self _, h2⟩
      · exact ⟨by simp, h2⟩
  | collapseSomeOp fuel =>
    simp only [applyOp]
    unfold collapseSome collapseAll
    dsimp only
    split
    · exact ⟨Finset.mem_singleton_self _, h2⟩
    · split
      · exact ⟨h1, h2⟩
      · rename_i keep1 hkeep1
        have hk1 : VIRTUAL_ROOT_ID ∈ keep1 := by
          split at hkeep1
          · injection hkeep1 with h
            rw [← h]
            simp
          · split at hkeep1
            · simp at hkeep1
            · injection hkeep1 with h
              rw [← h]
              simp
            · injection hkeep1 with h
              rw [← h]
              simp
        split
        · exact ⟨h1, h2⟩
        · rename_i keep hkeep
          refine ⟨?_, h2⟩
          split at hkeep
          · injection hkeep with h
            rw [← h]
            exact hk1
          · split at hkeep
            · injection hkeep with h
              rw [← h]
              exact hk1
            · split at hkeep
              · simp at hkeep
              · injection hkeep with h
                rw [← h]
                exact hk1
              · injection hkeep with h
                rw [← h]
                exact Finset.mem_union_left _ hk1
  | foldCycleOp fuel load =>
    simp only [applyOp]
    unfold foldCycle collapseAll
    split
    · split
      · exact ⟨h1, h2⟩
      · exact ⟨by simp, h2⟩
    · unfold expandAll
      split
      · rcases expandLevel_expansionMono load fuel st _ with ⟨ha, hb⟩
        refine ⟨ha h1, ?_⟩
        rw [hb]
        exact h2
      · exact ⟨h1, h2⟩
    · exact ⟨Finset.mem_singleton_self _, h2⟩
    · exact ⟨h1, h2⟩
  | pasteOp targetId moveOk load =>
    simp only [applyOp]
    unfold handlePaste
    split
    · exact ⟨h1, h2⟩
    · rename_i cutId hcut
      split
      · exact ⟨h1, h2⟩
      · split
        · dsimp only
          rcases refreshParentChildren_expansionMono st targetId true (some cutId) load
            with ⟨ha, hb⟩
          split
          · refine ⟨ha h1, ?_⟩
            rw [hb]
            exact h2
          · split
            · refine ⟨ha h1, ?_⟩
              rw [hb]
              exact h2
            · rcases refreshParentChildren_expansionMono
                (refreshParentChildren st targetId true (some cutId) load) _ false none load
                with ⟨hc, hd⟩
              refine ⟨hc (ha h1), ?_⟩
              rw [hd, hb]
              exact h2
        · exact ⟨h1, h2⟩
  | moveToRootOp nodeId moveOk load =>
    simp only [applyOp]
    unfold handleMoveToRoot
    split
    · exact ⟨h1, h2⟩
    · rename_i targetNodeId htn
      split
      · exact ⟨h1, h2⟩
      · split
        · dsimp only
          rcases refreshParentChildren_expansionMono st VIRTUAL_ROOT_ID false
            (some targetNodeId) load with ⟨ha, hb⟩
          split
          · refine ⟨ha h1, ?_⟩
            rw [hb]
            exact h2
          · split
            · refine ⟨ha h1, ?_⟩
              rw [hb]
              exact h2
            · rcases refreshParentChildren_expansionMono
                (refreshParentChildren st VIRTUAL_ROOT_ID false (some targetNodeId) load) _
                false none load with ⟨hc, hd⟩
              refine ⟨hc (ha h1), ?_⟩
              rw [hd, hb]
              exact h2
        · exact ⟨h1, h2⟩
  | deleteOp nodeId deleteOk load =>
    simp only [applyOp]
    unfold handleDelete
    split
    · exact ⟨h1, h2⟩
    · split
      · exact ⟨h1, h2⟩
      · split
        · apply refreshParents_inv
          · split <;> split <;> split <;> exact h1
          · split <;> split <;> split <;> exact h2
        · exact ⟨h1, h2⟩
  | refreshTreeOp load =>
    simp only [applyOp]
    unfold refreshTree
    dsimp only
    split
    · constructor
      · simp
      · intro p hp
        obtain ⟨id, _, hid⟩ := List.mem_map.1 hp
        rw [← hid]
    · exact ⟨by simp, h2⟩
  | flushPendingOp =>
    simp only [applyOp]
    unfold flushPendingExpansions
    split
    · exact ⟨h1, h2⟩
    · exact ⟨mem_foldl_flushTrue _ _ h1 h2, by simp⟩
  | rootFocusOp =>
    simp only [applyOp]
    unfold rootFocusEffect
    split
    · split
      · split
        · exact ⟨h1, h2⟩
        · exact ⟨h1, h2⟩
      · exact ⟨h1, h2⟩
    · exact ⟨h1, h2⟩

/-- C5 counterexample: the invariant as stated — over sequences that may
toggle-expand any node id, the virtual root included — is false: one
toggle-expand of the virtual root id from the initial state removes it
from the expansion set. -/
theorem virtualRoot_removable_counterexample :
    ¬ (∀ st : TreeState, Reachable st → VIRTUAL_ROOT_ID ∈ st.expandedNodes) := by
  intro h
  have h2 := h (applyOp initState (TreeOp.toggleExpand VIRTUAL_ROOT_ID))
    (Reachable.step (TreeOp.toggleExpand VIRTUAL_ROOT_ID) Reachable.init)
  revert h2
  decide

/-- C5 amended: in every state reachable from the initial state by public
operations in which toggle-expand is never invoked with the virtual root
id itself (in the sources no call site ever passes it: the virtual root
is neither rendered nor focusable), the virtual root id is a member of
the expansion set. -/
theorem virtualRoot_alwaysExpanded (st : TreeState) (h : ReachableAmended st) :
    VIRTUAL_ROOT_ID ∈ st.expandedNodes := by
  have main : VIRTUAL_ROOT_ID ∈ st.expandedNodes
      ∧ ∀ p ∈ st.pendingExpansions, p.2 = true := by
    induction h with
    | init => exact ⟨Finset.mem_singleton_self _, by simp [initState]⟩
    | step op hop h ih => exact applyOp_inv _ op hop ih.1 ih.2
  exact main.1

/-- Witness for the amended C5 statement on a short concrete run:
load the root children, toggle Docs open, collapse all. -/
theorem virtualRoot_alwaysExpanded_witness :
    VIRTUAL_ROOT_ID ∈
      (applyOp (applyOp (applyOp initState
          (TreeOp.childrenLoaded VIRTUAL_ROOT_ID [nDocs, nMusic]))
          (TreeOp.toggleExpand "Docs"))
          TreeOp.collapseAllOp).expandedNodes :=
  virtualRoot_alwaysExpanded _
    (ReachableAmended.step TreeOp.collapseAllOp trivial
      (ReachableAmended.step (TreeOp.toggleExpand "Docs")
        (show ("Docs" : String) ≠ VIRTUAL_ROOT_ID by decide)
        (ReachableAmended.step (TreeOp.childrenLoaded VIRTUAL_ROOT_ID [nDocs, nMusic]) trivial
          ReachableAmended.init)))

/-- Heads of a forest distribute over cons. -/
lemma forestHeads_cons (t : LTree) (ts : List LTree) :
    forestHeads (t :: ts) = t.head :: forestHeads ts := rfl

/-- Recomputing the level always yields the level-overwritten node. -/
lemma setLevel_eq (n : TreeNode) (lvl : Nat) :
    (if n.level = lvl then n else { n with level := lvl }) = { n with level := lvl } := by
  obtain ⟨i, l, hc, lv⟩ := n
  by_cases h : lv = lvl <;> simp [h]

/-- Level arithmetic for shifting one step of depth into the base level. -/
lemma setLevel_shift (m : TreeNode) (lvl d : Nat) :
    ({ m with level := lvl + (d + 1) } : TreeNode) = { m with level := (lvl + 1) + d } := by
  obtain ⟨i, l, hc, lv⟩ := m
  simp
  omega

/-- The source `flattenTree`, run on the heads of a forest against any
cache that agrees with the forest, with fuel at least the forest depth,
computes exactly the specification traversal `visFlatten`. -/
theorem flatten_agrees (S : Finset String) (C : Cache) (ts : List LTree) (lvl fuel : Nat)
    (H : ∀ t ∈ forestTrees ts, entryOk C t) (hf : forestDepth ts ≤ fuel) :
    flattenTree fuel (forestHeads ts) lvl S C = visFlatten S ts lvl := by
  match ts with
  | [] => simp [forestHeads, flattenTree, visFlatten]
  | LTree.mk n lded cs :: rest =>
    have Hhead : entryOk C (LTree.mk n lded cs) := by
      apply H
      rw [forestTrees]
      exact List.mem_cons_self _ _
    have Hcs : ∀ t ∈ forestTrees cs, entryOk C t := by
      intro t ht
      apply H
      rw [forestTrees]
      exact List.mem_cons_of_mem _ (List.mem_append_left _ ht)
    have Hrest : ∀ t ∈ forestTrees rest, entryOk C t := by
      intro t ht
      apply H
      rw [forestTrees]
      exact List.mem_cons_of_mem _ (List.mem_append_right _ ht)
    have hfrest : forestDepth rest ≤ fuel := by
      refine le_trans ?_ hf
      rw [forestDepth]
      exact le_max_right _ _
    have htail := flatten_agrees S C rest lvl fuel Hrest hfrest
    rw [forestHeads_cons, flattenTree, visFlatten]
    dsimp only
    rw [setLevel_eq, htail]
    unfold entryOk at Hhead
    dsimp only [LTree.head, LTree.isLoaded, LTree.kids] at Hhead
    congr 1
    congr 1
    dsimp only [LTree.head]
    by_cases hS : n.id ∈ S
    · rw [if_pos hS]
      cases lded with
      | false =>
        simp at Hhead
        rw [Hhead]
        simp
      | true =>
        simp at Hhead
        rw [Hhead, if_pos (show true = true ∧ n.id ∈ S from ⟨rfl, hS⟩)]
        by_cases hcs0 : (forestHeads cs).length > 0
        · rw [if_pos (by simpa using hcs0)]
          have hdcs : 1 + forestDepth cs ≤ fuel := by
            refine le_trans ?_ hf
            rw [forestDepth]
            exact le_max_left _ _
          obtain ⟨f, rfl⟩ : ∃ f, fuel = f + 1 := ⟨fuel - 1, by omega⟩
          exact flatten_agrees S C cs (lvl + 1) f Hcs (by omega)
        · have hcsnil : cs = [] := by
            cases cs with
            | nil => rfl
            | cons c cs2 => simp [forestHeads_cons] at hcs0
          subst hcsnil
          simp [forestHeads, visFlatten]
    · rw [if_neg hS, if_neg (by simp [hS])]
termination_by sizeOf ts
decreasing_by
  all_goals simp
  all_goals omega

/-- Visibility in a forest extends to a larger forest. -/
lemma Vis_cons_of_tail (S : Finset String) {t : LTree} {ts : List LTree} {m : TreeNode}
    {d : Nat} (h : Vis S ts m d) : Vis S (t :: ts) m d := by
  cases h with
  | here hmem => exact Vis.here (List.mem_cons_of_mem _ hmem)
  | deeper hmem hld hS hvis => exact Vis.deeper (List.mem_cons_of_mem _ hmem) hld hS hvis

/-- The specification traversal contains a node exactly when the node is
visible at some depth — all its loaded proper ancestors are expanded —
and then it carries the recomputed level. -/
theorem visFlatten_mem (S : Finset String) (ts : List LTree) (lvl : Nat) (tn : TreeNode) :
    tn ∈ visFlatten S ts lvl ↔
      ∃ m d, Vis S ts m d ∧ tn = { m with level := lvl + d } := by
  match ts with
  | [] =>
    rw [visFlatten]
    simp only [List.not_mem_nil, false_iff]
    rintro ⟨m, d, hvis, _⟩
    cases hvis with
    | here hmem => exact absurd hmem (List.not_mem_nil _)
    | deeper hmem _ _ _ => exact absurd hmem (List.not_mem_nil _)
  | LTree.mk n lded cs :: rest =>
    have ihcs := visFlatten_mem S cs (lvl + 1) tn
    have ihrest := visFlatten_mem S rest lvl tn
    rw [visFlatten]
    rw [List.mem_cons, List.mem_append]
    constructor
    · rintro (h | h | h)
      · exact ⟨n, 0, Vis.here (t := LTree.mk n lded cs) (List.mem_cons_self _ _), h⟩
      · by_cases hcond : lded = true ∧ n.id ∈ S
        · rw [if_pos hcond] at h
          obtain ⟨m, d, hvis, heq⟩ := ihcs.1 h
          refine ⟨m, d + 1,
            Vis.deeper (t := LTree.mk n lded cs) (List.mem_cons_self _ _) hcond.1 hcond.2
              hvis, ?_⟩
          rw [heq]
          exact (setLevel_shift m lvl d).symm
        · rw [if_neg hcond] at h
          exact absurd h (List.not_mem_nil _)
      · obtain ⟨m, d, hvis, heq⟩ := ihrest.1 h
        exact ⟨m, d, Vis_cons_of_tail S hvis, heq⟩
    · rintro ⟨m, d, hvis, heq⟩
      cases hvis with
      | here hmem =>
        rename_i t
        rcases List.mem_cons.1 hmem with h1 | h1
        · left
          subst h1
          exact heq
        · right
          right
          exact ihrest.2 ⟨t.head, 0, Vis.here h1, heq⟩
      | deeper hmem hld hSm hvis2 =>
        rename_i t d2
        rcases List.mem_cons.1 hmem with h1 | h1
        · subst h1
          right
          left
          rw [if_pos ⟨hld, hSm⟩]
          apply ihcs.2
          refine ⟨m, d2, hvis2, ?_⟩
          rw [heq]
          exact setLevel_shift m lvl d2
        · right
          right
          exact ihrest.2 ⟨m, d2 + 1, Vis.deeper h1 hld hSm hvis2, heq⟩
termination_by sizeOf ts
decreasing_by
  all_goals simp
  all_goals omega

/-- C1: for every expansion set S, every cache C and every forest
description F of C's loaded portion (each tree records whether C holds an
entry for its node, and that entry lists exactly its children's nodes),
running the source `flattenTree` on the root children with enough fuel
yields exactly the specification traversal: the nodes all of whose loaded
proper ancestors are members of S and have entries in C, in depth-first
pre-order with each subtree directly after its root, every emitted node
carrying level parent-level-plus-one (0 at the roots) regardless of the
level stored on the source node. -/
theorem flattenTree_spec (S : Finset String) (C : Cache) (F : List LTree) (fuel : Nat)
    (H : ∀ t ∈ forestTrees F, entryOk C t) (hfuel : forestDepth F ≤ fuel) :
    flattenTree fuel (forestHeads F) 0 S C = visFlatten S F 0
    ∧ ∀ tn, tn ∈ flattenTree fuel (forestHeads F) 0 S C ↔
        ∃ m d, Vis S F m d ∧ tn = { m with level := d } := by
  have heq := flatten_agrees S C F 0 fuel H hfuel
  refine ⟨heq, ?_⟩
  intro tn
  rw [heq, visFlatten_mem]
  simp only [Nat.zero_add]

/-- Witness for C1 on the collapse-scenario cache and its forest
description, with the expansion set of the specification's flatten
scenario. -/
theorem flattenTree_spec_witness :
    flattenTree 3 (forestHeads forestC1) 0
        ({VIRTUAL_ROOT_ID, "Docs", "Work"} : Finset String) exampleCacheC3
      = visFlatten ({VIRTUAL_ROOT_ID, "Docs", "Work"} : Finset String) forestC1 0 :=
  (flattenTree_spec {VIRTUAL_ROOT_ID, "Docs", "Work"} exampleCacheC3 forestC1 3
    (by
      intro t ht
      have hft : forestTrees forestC1 =
          [LTree.mk nDocs true [LTree.mk nWork true [LTree.mk nProjA false []]],
           LTree.mk nWork true [LTree.mk nProjA false []],
           LTree.mk nProjA false [],
           LTree.mk nPics false []] := by
        simp [forestC1, forestTrees]
      rw [hft] at ht
      fin_cases ht <;> (unfold entryOk; decide))
    (by simp [forestC1, forestDepth])).1

/-- Sanity check, the flatten scenario of the specification: with Docs
and Work expanded, the visible rows are Docs, Work, ProjA, Pics at levels
0, 1, 2, 0 — ProjA's bogus stored level 99 is recomputed away. -/
theorem flatten_scenario_rows :
    visFlatten ({VIRTUAL_ROOT_ID, "Docs", "Work"} : Finset String) forestC1 0 =
      [{ nDocs with level := 0 }, { nWork with level := 1 }, { nProjA with level := 2 },
       { nPics with level := 0 }] := by
  simp [forestC1, visFlatten, nDocs, nWork, nProjA, nPics, VIRTUAL_ROOT_ID]
